/-
Verification of the deadlock-detection web app (`src/app.py`).

The program keeps a single in-memory table `processes` mapping a process
name to a record with fields `holds` and `requests` (each the name of a
resource).  A Python `dict` preserves insertion order and has unique keys,
so the store is embedded as an insertion-ordered association list
`List (String × PInfo)`.

`detect_deadlock` builds a directed graph with, for every entry
`(process, details)`, an edge `process → details.requests` and an edge
`details.holds → process`, and reports whether the graph has at least one
directed cycle (the source asks `networkx.simple_cycles` for the list of
simple cycles and tests non-emptiness; a directed graph has a cycle iff it
has a simple cycle, and `simple_cycles` also yields self-loops).  The
cycle test is embedded executably by fuel-bounded reachability
(`reachableWithin`) and proved equivalent to the mathematical existence
of a directed cycle (`HasCycle`).
-/
import Mathlib

namespace DeadlockApp

/-- One entry of the `processes` table: the value stored under a process
name, with the two fields `"holds"` and `"requests"` of `src/app.py`. -/
structure PInfo where
  holds : String
  requests : String
deriving DecidableEq, Repr

/-- The `processes` dict of `src/app.py`: an insertion-ordered mapping
from process name to its `PInfo`. -/
abbrev Store := List (String × PInfo)

/-- The edge list of the directed graph built by `detect_deadlock`:
for each entry, the edge `process → requests` then `holds → process`
(`graph.add_edge(process, details["requests"])`,
`graph.add_edge(details["holds"], process)`). -/
def edges : Store → List (String × String)
  | [] => []
  | (process, details) :: rest =>
    (process, details.requests) :: (details.holds, process) :: edges rest

/-- The edge relation of the graph: `a → b` iff `(a, b)` is among the
edges (networkx deduplicates parallel edges, which is invisible to a
membership-based relation). -/
def step (es : List (String × String)) (a b : String) : Prop := (a, b) ∈ es

instance (es : List (String × String)) (a b : String) :
    Decidable (step es a b) := by
  unfold step; infer_instance

/-- The test `reachableWithin es n a b` decides whether the graph `es` has a
directed walk from `a` to `b` using at most `n` edges. -/
def reachableWithin (es : List (String × String)) : Nat → String → String → Bool
  | 0, a, b => a == b
  | n + 1, a, b =>
    a == b || es.any fun e => e.1 == a && reachableWithin es n e.2 b

/-- Executable cycle test: some edge `(u, v)` closes back from `v` to `u`.
Fuel `es.length` suffices because a duplicate-free walk uses at most one
edge per distinct edge target. -/
def hasCycleB (es : List (String × String)) : Bool :=
  es.any fun e => reachableWithin es es.length e.2 e.1

/-- The function `detect_deadlock` of `src/app.py`: `False` on an empty table,
otherwise whether the holds/requests graph has a directed cycle
(`len(list(nx.simple_cycles(graph))) > 0`). -/
def detect_deadlock (processes : Store) : Bool :=
  if processes.isEmpty then false
  else hasCycleB (edges processes)

/-- A directed cycle as the claims state it: a nonempty vertex list
`v :: w` such that consecutive vertices are edges and the last returns to
`v`; `w = []` is a self-loop `v → v`. -/
def HasCycle (es : List (String × String)) : Prop :=
  ∃ v w, List.Chain (step es) v (w ++ [v])

/-- Python's `min(processes.keys(), key=lambda x: len(processes[x]["holds"]))` on a
non-empty table with first entry `p` and remaining entries `rest`.
Python's `min` scans in iteration order (insertion order for a dict) and
replaces the running minimum only on a strictly smaller key value, so it
returns the first-encountered minimum; `processes[x]["holds"]` is the
value paired with the key `x` (dict keys are unique). -/
def minHoldsEntry (p : String × PInfo) (rest : Store) : String × PInfo :=
  rest.foldl
    (fun best q => if q.2.holds.length < best.2.holds.length then q else best) p

/-- The JSON body returned by `POST /api/resolve`. -/
inductive ResolveResult where
  | noProcesses (message : String)
  | resolved (terminated : String)
  | noDeadlock (message : String)
deriving DecidableEq, Repr

/-- The `resolve` handler of `src/app.py`: on an empty table answer the
informational message; when `detect_deadlock()` fires, delete the entry of
the `min`-victim (`del processes[process_to_terminate]`) and report it;
otherwise report no deadlock.  The second component is the table after
the call. -/
def resolve (ps : Store) : ResolveResult × Store :=
  match ps with
  | [] => (.noProcesses "No processes to resolve", [])
  | p :: rest =>
    if detect_deadlock (p :: rest) then
      let victim := (minHoldsEntry p rest).1
      (.resolved victim, (p :: rest).eraseP fun q => q.1 == victim)
    else (.noDeadlock "No deadlock detected", p :: rest)

/-- The `detect` handler (`GET /api/detect`): it only calls
`detect_deadlock()` and returns the flag; it contains no assignment to
`processes`, so the table is passed through unchanged. -/
def detect_endpoint (ps : Store) : Bool × Store := (detect_deadlock ps, ps)

/-- Iterating the table transformation of `POST /api/resolve`. -/
def resolveIter : Nat → Store → Store
  | 0, ps => ps
  | n + 1, ps => resolveIter n (resolve ps).2

/-- The JSON body returned by `POST /api/processes`. -/
inductive PostResult where
  | badRequest (error : String)
  | ok (process : String)
deriving DecidableEq, Repr

/-- Assignment `processes[process_name] = {...}` on a Python dict: an
existing key keeps its position and gets the new value, a new key is
appended at the end. -/
def dictSet (ps : Store) (k : String) (v : PInfo) : Store :=
  if ps.any (fun q => q.1 == k) then
    ps.map fun q => if q.1 == k then (k, v) else q
  else ps ++ [(k, v)]

/-- The `POST` branch of `handle_processes` in `src/app.py`.  The three
fields come from `data.get(...)`, which yields `None` (`none`) when the
field is absent.  `not all([process_name, holds, requests])` is true when
any of the three is `None` or the empty string, in which case the handler
answers 400 and leaves the table alone; otherwise it stores the entry and
reports success with the process name. -/
def handle_processes_post (ps : Store)
    (process_name holds_resource requests_resource : Option String) :
    PostResult × Store :=
  match process_name, holds_resource, requests_resource with
  | some n, some h, some r =>
    if n = "" || h = "" || r = "" then (.badRequest "All fields are required", ps)
    else (.ok n, dictSet ps n ⟨h, r⟩)
  | _, _, _ => (.badRequest "All fields are required", ps)

/-- The `GET` branch of `handle_processes`: it returns the current table
(`jsonify({"processes": processes})`) and does not modify it. -/
def handle_processes_get (ps : Store) : Store := ps

/-- Reading one process out of the JSON object returned by
`GET /api/processes`: the value stored under key `k`. -/
def dictLookup (ps : Store) (k : String) : Option PInfo :=
  (ps.find? fun q => q.1 == k).map Prod.snd

/-- The JSON body returned by `POST /api/chat`. -/
inductive ChatResult where
  | badRequest (error : String)
  | ok (response : String)
  | serverError (error : String) (fallback : String)
deriving DecidableEq, Repr

/-- The fixed fallback string of the `except` branch of `chat`. -/
def chat_fallback : String :=
  "Basic deadlock resolution: Terminate the process holding the fewest resources."

/-- The `chat` handler of `src/app.py` on a request carrying a JSON body.
`data.get('message', '')` yields `''` when the field is absent; an empty
message answers 400.  The call to the external model
(`model.generate_content(prompt)`) is the only remaining statement that
can raise; its outcome is passed in as `upstream` (`Except.error e`
embeds a raised exception with text `e`), and a raise is answered by the
`except` branch: 500 with the error text and the fixed fallback string. -/
def chat (message : Option String) (upstream : Except String String) :
    ChatResult :=
  let user_message := message.getD ""
  if user_message = "" then .badRequest "Message is required"
  else
    match upstream with
    | .ok t => .ok t
    | .error e => .serverError e chat_fallback

/-- A store whose `n` processes form one cycle: process `p i` holds
resource `r i` and requests resource `r (i+1 mod n)`. -/
def cycleStore (n : Nat) (p r : Nat → String) : Store :=
  (List.range n).map fun i => (p i, ⟨r i, r ((i + 1) % n)⟩)

/-- Verification infrastructure for the cycle store: a rank for the
graph nodes once the `m`-th process of an `n`-cycle has been removed.
Positions are counted from the slot after the removed process, processes
ranking just above their held resource, so every surviving edge strictly
increases the rank. -/
def cycleRank (n m : Nat) (p r : Nat → String) (x : String) : Nat :=
  match (List.range n).find? (fun i => p i == x) with
  | some i => 2 * (if m < i then i - (m + 1) else i + n - (m + 1)) + 1
  | none =>
    match (List.range n).find? (fun i => r i == x) with
    | some i => 2 * (if m < i then i - (m + 1) else i + n - (m + 1))
    | none => 0

/- Concrete stores used to evaluate the theorems. -/

/-- Two processes in a deadlock: `A` holds `R1` and requests `R2`, `B`
holds `R2` and requests `R1` (the scenario of the spec). -/
def twoCycleStore : Store := [("A", ⟨"R1", "R2"⟩), ("B", ⟨"R2", "R1"⟩)]

/-- The two-process deadlock plus a bystander `C` (holding the
one-character resource `x`, requesting `y`) that is on no cycle. -/
def bystanderStore : Store :=
  [("A", ⟨"R1", "R2"⟩), ("B", ⟨"R2", "R1"⟩), ("C", ⟨"x", "y"⟩)]

/-- A one-process store with no cycle. -/
def acyclicStore : Store := [("P", ⟨"a", "b"⟩)]

/- ### Soundness and completeness of `reachableWithin` -/

theorem reachableWithin_sound {es : List (String × String)} :
    ∀ {n a b}, reachableWithin es n a b = true →
      Relation.ReflTransGen (step es) a b := by
  intro n
  induction n with
  | zero =>
    intro a b h
    simp only [reachableWithin, beq_iff_eq] at h
    exact h ▸ Relation.ReflTransGen.refl
  | succ n ih =>
    intro a b h
    simp only [reachableWithin, Bool.or_eq_true, beq_iff_eq, List.any_eq_true,
      Bool.and_eq_true] at h
    rcases h with h | ⟨e, he, h1, h2⟩
    · exact h ▸ Relation.ReflTransGen.refl
    · have hab : step es a e.2 := by
        have : e = (a, e.2) := by
          rcases e with ⟨x, y⟩
          simp only [beq_iff_eq] at h1
          simp [h1]
        simpa [step, ← this] using he
      exact Relation.ReflTransGen.head hab (ih h2)

theorem reachableWithin_mono {es : List (String × String)} :
    ∀ {n m a b}, n ≤ m → reachableWithin es n a b = true →
      reachableWithin es m a b = true := by
  intro n
  induction n with
  | zero =>
    intro m a b _ h
    simp only [reachableWithin, beq_iff_eq] at h
    subst h
    cases m <;> simp [reachableWithin]
  | succ n ih =>
    intro m a b hnm h
    match m, hnm with
    | m + 1, hnm =>
      simp only [reachableWithin, Bool.or_eq_true, beq_iff_eq, List.any_eq_true,
        Bool.and_eq_true] at h ⊢
      rcases h with h | ⟨e, he, h1, h2⟩
      · exact Or.inl h
      · exact Or.inr ⟨e, he, h1, ih (Nat.le_of_succ_le_succ hnm) h2⟩

/-- All vertices of a chain after the start have an incoming edge, so they
occur among the edge targets. -/
theorem chain_mem_targets {es : List (String × String)} :
    ∀ {a : String} {l : List String}, List.Chain (step es) a l →
      ∀ x ∈ l, x ∈ es.map Prod.snd := by
  intro a l
  induction l generalizing a with
  | nil => intro _ x hx; cases hx
  | cons c cs ih =>
    intro h x hx
    rw [List.chain_cons] at h
    rcases List.mem_cons.mp hx with rfl | hx
    · exact List.mem_map.mpr ⟨(a, x), h.1, rfl⟩
    · exact ih h.2 x hx

/-- Any chain from `a` can be shortened to one whose full vertex list
`a :: l'` has no duplicates, with the same endpoint. -/
theorem chain_shorten {es : List (String × String)} :
    ∀ (l : List String) (a : String), List.Chain (step es) a l →
      ∃ l', List.Chain (step es) a l' ∧ (a :: l').Nodup ∧
        (a :: l').getLast (List.cons_ne_nil _ _)
          = (a :: l).getLast (List.cons_ne_nil _ _) := by
  intro l
  induction l with
  | nil =>
    intro a _
    exact ⟨[], List.Chain.nil, List.nodup_singleton a, rfl⟩
  | cons x xs ih =>
    intro a h
    rw [List.chain_cons] at h
    obtain ⟨l'', hc, hnd, hlast⟩ := ih x h.2
    have hlast' : (x :: l'').getLast (List.cons_ne_nil _ _)
        = (a :: x :: xs).getLast (List.cons_ne_nil _ _) := by
      rw [hlast, List.getLast_cons_cons]
    by_cases hax : a = x
    · -- the walk already starts at `a`; drop the leading step
      subst hax
      exact ⟨l'', hc, hnd, hlast'⟩
    by_cases hal : a ∈ l''
    · -- cut the walk at the later occurrence of `a`
      obtain ⟨u, v, huv⟩ := List.append_of_mem hal
      subst huv
      have hsplit := List.chain_split.mp hc
      refine ⟨v, hsplit.2, ?_, ?_⟩
      · have : (a :: v).Sublist (x :: u ++ a :: v) := by
          refine List.Sublist.cons _ ?_
          exact (List.sublist_append_right _ _)
        exact this.nodup (by simpa using hnd)
      · rw [← hlast']
        have hvne : (a :: v) ≠ [] := List.cons_ne_nil _ _
        calc (a :: v).getLast (List.cons_ne_nil _ _)
            = ((x :: u) ++ (a :: v)).getLast (by simp) := by
              rw [List.getLast_append_of_ne_nil hvne]
          _ = (x :: (u ++ a :: v)).getLast (List.cons_ne_nil _ _) := by
              simp
    · -- `a` is genuinely new: prepend it
      refine ⟨x :: l'', List.Chain.cons h.1 hc, ?_, hlast'⟩
      rw [List.nodup_cons]
      refine ⟨?_, hnd⟩
      intro hmem
      rcases List.mem_cons.mp hmem with h' | h'
      · exact hax h'
      · exact hal h'

theorem chain_reachableWithin {es : List (String × String)} :
    ∀ (l : List String) (a : String), List.Chain (step es) a l →
      reachableWithin es l.length a
        ((a :: l).getLast (List.cons_ne_nil _ _)) = true := by
  intro l
  induction l with
  | nil => intro a _; simp [reachableWithin]
  | cons x xs ih =>
    intro a h
    rw [List.chain_cons] at h
    have hx := ih x h.2
    simp only [List.length_cons, reachableWithin, Bool.or_eq_true, beq_iff_eq,
      List.any_eq_true, Bool.and_eq_true]
    refine Or.inr ⟨(a, x), h.1, by simp, ?_⟩
    simpa [List.getLast_cons_cons] using hx

/-- Completeness: reachability implies the fuel-`es.length` search
succeeds. -/
theorem reachableWithin_complete {es : List (String × String)} {a b : String}
    (h : Relation.ReflTransGen (step es) a b) :
    reachableWithin es es.length a b = true := by
  obtain ⟨l, hc, hlast⟩ := List.exists_chain_of_relationReflTransGen h
  obtain ⟨l', hc', hnd, hlast'⟩ := chain_shorten l a hc
  have hsub : l' ⊆ es.map Prod.snd := fun x hx => chain_mem_targets hc' x hx
  have hlen : l'.length ≤ es.length := by
    have := (List.subperm_of_subset (List.Nodup.of_cons hnd) hsub).length_le
    simpa using this
  have := chain_reachableWithin l' a hc'
  rw [hlast', hlast] at this
  exact reachableWithin_mono hlen this

/-- The decision procedure for reachability is exact. -/
theorem reachableWithin_iff (es : List (String × String)) (a b : String) :
    reachableWithin es es.length a b = true ↔
      Relation.ReflTransGen (step es) a b :=
  ⟨reachableWithin_sound, reachableWithin_complete⟩

/- ### Cycles -/

theorem hasCycleB_iff_transGen (es : List (String × String)) :
    hasCycleB es = true ↔ ∃ v, Relation.TransGen (step es) v v := by
  unfold hasCycleB
  simp only [List.any_eq_true]
  constructor
  · rintro ⟨e, he, hr⟩
    refine ⟨e.1, Relation.TransGen.head' ?_ (reachableWithin_sound hr)⟩
    simpa [step] using he
  · rintro ⟨v, hv⟩
    obtain ⟨b, hvb, hbv⟩ := Relation.TransGen.head'_iff.mp hv
    exact ⟨(v, b), hvb, reachableWithin_complete hbv⟩

theorem hasCycle_iff_transGen (es : List (String × String)) :
    HasCycle es ↔ ∃ v, Relation.TransGen (step es) v v := by
  constructor
  · rintro ⟨v, w, hc⟩
    obtain ⟨x, rest, hw⟩ : ∃ x rest, w ++ [v] = x :: rest := by
      cases w with
      | nil => exact ⟨v, [], rfl⟩
      | cons y ys => exact ⟨y, ys ++ [v], rfl⟩
    rw [hw, List.chain_cons] at hc
    refine ⟨v, Relation.TransGen.head' hc.1 ?_⟩
    refine List.relationReflTransGen_of_exists_chain rest hc.2 ?_
    have h2 : (x :: rest).getLast? = some v := by
      rw [← hw]
      simp
    rw [List.getLast?_eq_getLast _ (List.cons_ne_nil _ _)] at h2
    exact Option.some.inj h2
  · rintro ⟨v, hv⟩
    obtain ⟨b, hvb, hbv⟩ := Relation.TransGen.head'_iff.mp hv
    obtain ⟨l, hc, hlast⟩ := List.exists_chain_of_relationReflTransGen hbv
    refine ⟨v, (b :: l).dropLast, ?_⟩
    have hbl : b :: l = (b :: l).dropLast ++ [v] := by
      conv_lhs => rw [← List.dropLast_append_getLast (List.cons_ne_nil b l)]
      rw [hlast]
    rw [← hbl, List.chain_cons]
    exact ⟨hvb, hc⟩

/-- The test `hasCycleB` decides exactly the existence of a directed cycle. -/
theorem hasCycleB_iff (es : List (String × String)) :
    hasCycleB es = true ↔ HasCycle es := by
  rw [hasCycleB_iff_transGen, hasCycle_iff_transGen]

/- ### The resolution policy -/

/-- The entry `minHoldsEntry` is the first-encountered minimum of the holds-name
length, as a positional decomposition of the table. -/
theorem minHoldsEntry_spec (p : String × PInfo) (rest : Store) :
    ∃ pre post, p :: rest = pre ++ minHoldsEntry p rest :: post ∧
      (∀ q ∈ p :: rest,
        (minHoldsEntry p rest).2.holds.length ≤ q.2.holds.length) ∧
      (∀ q ∈ pre, (minHoldsEntry p rest).2.holds.length < q.2.holds.length) := by
  induction rest generalizing p with
  | nil =>
    exact ⟨[], [], rfl, by simp [minHoldsEntry], by simp⟩
  | cons q rs ih =>
    have hfold : minHoldsEntry p (q :: rs)
        = minHoldsEntry (if q.2.holds.length < p.2.holds.length then q else p) rs := by
      simp [minHoldsEntry, List.foldl_cons]
    by_cases hqp : q.2.holds.length < p.2.holds.length
    · rw [if_pos hqp] at hfold
      obtain ⟨pre', post', hdecomp, hle, hlt⟩ := ih q
      rw [← hfold] at hdecomp hle hlt
      have hminq : (minHoldsEntry p (q :: rs)).2.holds.length < p.2.holds.length :=
        Nat.lt_of_le_of_lt (hle q (List.mem_cons_self _ _)) hqp
      refine ⟨p :: pre', post', by simpa using hdecomp, ?_, ?_⟩
      · intro x hx
        rcases List.mem_cons.mp hx with hxe | hx
        · subst hxe; exact Nat.le_of_lt hminq
        · exact hle x hx
      · intro x hx
        rcases List.mem_cons.mp hx with hxe | hx
        · subst hxe; exact hminq
        · exact hlt x hx
    · rw [if_neg hqp] at hfold
      have hpq : p.2.holds.length ≤ q.2.holds.length := Nat.le_of_not_lt hqp
      obtain ⟨pre', post', hdecomp, hle, hlt⟩ := ih p
      rw [← hfold] at hdecomp hle hlt
      cases pre' with
      | nil =>
        -- the minimum is the head `p` itself
        simp only [List.nil_append] at hdecomp
        obtain ⟨hm, hpost⟩ := List.cons.inj hdecomp
        refine ⟨[], q :: rs, by rw [← hm]; rfl, ?_, by simp⟩
        intro x hx
        rcases List.mem_cons.mp hx with hxe | hx
        · subst hxe; rw [← hm]
        · rcases List.mem_cons.mp hx with hxe | hx
          · subst hxe; rw [← hm]; exact hpq
          · exact hle x (List.mem_cons_of_mem _ hx)
      | cons a pre'' =>
        simp only [List.cons_append] at hdecomp
        obtain ⟨ha, hrs⟩ := List.cons.inj hdecomp
        subst ha
        have hmp : (minHoldsEntry p (q :: rs)).2.holds.length < p.2.holds.length :=
          hlt p (List.mem_cons_self _ _)
        refine ⟨p :: q :: pre'', post', ?_, ?_, ?_⟩
        · conv_lhs => rw [hrs]
          rfl
        · intro x hx
          rcases List.mem_cons.mp hx with hxe | hx
          · subst hxe; exact Nat.le_of_lt hmp
          · rcases List.mem_cons.mp hx with hxe | hx
            · subst hxe; exact Nat.le_trans (Nat.le_of_lt hmp) hpq
            · exact hle x (List.mem_cons_of_mem _ hx)
        · intro x hx
          rcases List.mem_cons.mp hx with hxe | hx
          · subst hxe; exact hmp
          · rcases List.mem_cons.mp hx with hxe | hx
            · subst hxe; exact Nat.lt_of_lt_of_le hmp hpq
            · exact hlt x (List.mem_cons_of_mem _ hx)

theorem getLast?_cons_append_singleton {α : Type} (a : α) (l : List α) (b : α) :
    (a :: (l ++ [b])).getLast? = some b := by
  rw [show a :: (l ++ [b]) = (a :: l) ++ [b] from rfl]
  exact List.getLast?_concat _

/-- A chain determines reachability from its head to its last vertex. -/
theorem chain_last_reflTransGen {es : List (String × String)} {a b : String}
    {l : List String} (hc : List.Chain (step es) a l)
    (hb : (a :: l).getLast? = some b) :
    Relation.ReflTransGen (step es) a b := by
  rw [List.getLast?_eq_getLast _ (List.cons_ne_nil _ _)] at hb
  exact List.relationReflTransGen_of_exists_chain l hc (Option.some.inj hb)

/-- Every vertex on a directed cycle reaches itself in at least one
step. -/
theorem transGen_self_of_mem_cycle {es : List (String × String)}
    {v x : String} {w : List String}
    (hc : List.Chain (step es) v (w ++ [v])) (hx : x ∈ v :: w) :
    Relation.TransGen (step es) x x := by
  rcases List.mem_cons.mp hx with hxv | hxw
  · subst hxv
    obtain ⟨c, cs, hw⟩ : ∃ c cs, w ++ [x] = c :: cs := by
      cases w with
      | nil => exact ⟨x, [], rfl⟩
      | cons y ys => exact ⟨y, ys ++ [x], rfl⟩
    rw [hw, List.chain_cons] at hc
    refine Relation.TransGen.head' hc.1 (chain_last_reflTransGen hc.2 ?_)
    rw [← hw]
    exact List.getLast?_concat _
  · obtain ⟨w1, w2, rfl⟩ := List.append_of_mem hxw
    rw [List.append_assoc, List.cons_append] at hc
    have hsplit := List.chain_split.mp hc
    have hvx : Relation.ReflTransGen (step es) v x :=
      chain_last_reflTransGen hsplit.1 (getLast?_cons_append_singleton _ _ _)
    obtain ⟨c, cs, hw⟩ : ∃ c cs, w2 ++ [v] = c :: cs := by
      cases w2 with
      | nil => exact ⟨v, [], rfl⟩
      | cons y ys => exact ⟨y, ys ++ [v], rfl⟩
    have hc2 := hsplit.2
    rw [hw, List.chain_cons] at hc2
    have hcv : Relation.ReflTransGen (step es) c v := by
      refine chain_last_reflTransGen hc2.2 ?_
      rw [← hw]
      exact List.getLast?_concat _
    exact Relation.TransGen.trans_left
      (Relation.TransGen.head' hc2.1 hcv) hvx

/-- A vertex none of whose successors reaches it back lies on no directed
cycle. -/
theorem not_mem_cycle_of_no_return {es : List (String × String)} {x : String}
    (h : ∀ b, step es x b → ¬ Relation.ReflTransGen (step es) b x) :
    ¬ ∃ v w, List.Chain (step es) v (w ++ [v]) ∧ x ∈ v :: w := by
  rintro ⟨v, w, hc, hx⟩
  obtain ⟨b, hxb, hbx⟩ :=
    Relation.TransGen.head'_iff.mp (transGen_self_of_mem_cycle hc hx)
  exact h b hxb hbx

/- ### Generic facts about the graph and the resolution step -/

/-- Characterization of the edge list. -/
theorem mem_edges {ps : Store} {x : String × String} :
    x ∈ edges ps ↔
      ∃ q, q ∈ ps ∧ (x = (q.1, q.2.requests) ∨ x = (q.2.holds, q.1)) := by
  induction ps with
  | nil => simp [edges]
  | cons q qs ih =>
    simp only [edges, List.mem_cons, ih]
    constructor
    · rintro (rfl | rfl | ⟨q', hq', hx⟩)
      · exact ⟨q, Or.inl rfl, Or.inl rfl⟩
      · exact ⟨q, Or.inl rfl, Or.inr rfl⟩
      · exact ⟨q', Or.inr hq', hx⟩
    · rintro ⟨q', hq' | hq', hx⟩
      · subst hq'
        rcases hx with rfl | rfl
        · exact Or.inl rfl
        · exact Or.inr (Or.inl rfl)
      · exact Or.inr (Or.inr ⟨q', hq', hx⟩)

/-- A graph admitting a strictly increasing rank has no cycle. -/
theorem hasCycleB_eq_false_of_rank {es : List (String × String)}
    (f : String → Nat) (hf : ∀ a b, step es a b → f a < f b) :
    hasCycleB es = false := by
  by_contra hcon
  rw [Bool.not_eq_false] at hcon
  obtain ⟨v, hv⟩ := (hasCycleB_iff_transGen es).mp hcon
  have hmono : ∀ {a b}, Relation.TransGen (step es) a b → f a < f b := by
    intro a b h
    induction h with
    | single h => exact hf _ _ h
    | tail _ h ih => exact Nat.lt_trans ih (hf _ _ h)
  exact absurd (hmono hv) (Nat.lt_irrefl _)

theorem inj_on_range_of_nodup_map {n : Nat} {g : Nat → String}
    (h : ((List.range n).map g).Nodup) :
    ∀ i j, i < n → j < n → g i = g j → i = j := by
  intro i j hi hj hg
  exact (List.nodup_map_iff_inj_on (List.nodup_range n)).mp h
    i (List.mem_range.mpr hi) j (List.mem_range.mpr hj) hg

theorem find?_range_self {n : Nat} {g : Nat → String}
    (hinj : ∀ i j, i < n → j < n → g i = g j → i = j) {i : Nat} (hi : i < n) :
    (List.range n).find? (fun j => g j == g i) = some i := by
  cases hfind : (List.range n).find? (fun j => g j == g i) with
  | none =>
    exact absurd (by simp : (g i == g i) = true)
      (List.find?_eq_none.mp hfind i (List.mem_range.mpr hi))
  | some j =>
    have h1 := List.find?_some hfind
    have h2 : j ∈ List.range n := List.mem_of_find?_eq_some hfind
    rw [hinj j i (List.mem_range.mp h2) hi (by simpa using h1)]

theorem find?_range_none {n : Nat} {g : Nat → String} {x : String}
    (hx : ∀ i, i < n → g i ≠ x) :
    (List.range n).find? (fun j => g j == x) = none := by
  rw [List.find?_eq_none]
  intro j hj hcon
  exact hx j (List.mem_range.mp hj) (by simpa using hcon)

theorem cycleRank_p {n m : Nat} {p r : Nat → String}
    (hpinj : ∀ i j, i < n → j < n → p i = p j → i = j) {i : Nat} (hi : i < n) :
    cycleRank n m p r (p i)
      = 2 * (if m < i then i - (m + 1) else i + n - (m + 1)) + 1 := by
  unfold cycleRank
  rw [find?_range_self hpinj hi]

theorem cycleRank_r {n m : Nat} {p r : Nat → String}
    (hrinj : ∀ i j, i < n → j < n → r i = r j → i = j)
    (hdisj : ∀ i j, i < n → j < n → p i ≠ r j) {i : Nat} (hi : i < n) :
    cycleRank n m p r (r i)
      = 2 * (if m < i then i - (m + 1) else i + n - (m + 1)) := by
  unfold cycleRank
  rw [find?_range_none (fun j hj => hdisj j i hj hi), find?_range_self hrinj hi]

/-- The rank increase along a surviving `requests` edge of the punctured
cycle: from process `i` (not the removed `m`) to resource `(i+1) % n`. -/
theorem cycleRank_lt_step {n m i : Nat} (hm : m < n) (hi : i < n) (him : i ≠ m) :
    (if m < i then i - (m + 1) else i + n - (m + 1)) <
      (if m < (i + 1) % n then (i + 1) % n - (m + 1)
        else (i + 1) % n + n - (m + 1)) := by
  by_cases h : i + 1 = n
  · have hmod : (i + 1) % n = 0 := by rw [h, Nat.mod_self]
    rw [hmod, if_neg (Nat.not_lt_zero m)]
    by_cases hmi : m < i
    · rw [if_pos hmi]; omega
    · rw [if_neg hmi]; omega
  · have hmod : (i + 1) % n = i + 1 := Nat.mod_eq_of_lt (by omega)
    rw [hmod]
    by_cases hmi : m < i
    · rw [if_pos hmi, if_pos (by omega)]; omega
    · rw [if_neg hmi, if_neg (by omega)]; omega

/-- In a table with unique keys split around one entry, no other entry
carries that entry's key. -/
theorem keys_ne_of_nodup_split {pre post : Store} {m : String × PInfo}
    (hnd : ((pre ++ m :: post).map Prod.fst).Nodup) :
    ∀ q ∈ pre ++ post, q.1 ≠ m.1 := by
  intro q hq hqm
  rw [List.map_append, List.map_cons] at hnd
  obtain ⟨hnd1, hnd2, hdisj⟩ := List.nodup_append.mp hnd
  rcases List.mem_append.mp hq with hq | hq
  · exact hdisj (List.mem_map.mpr ⟨q, hq, rfl⟩) (by simp [hqm])
  · exact (List.nodup_cons.mp hnd2).1
      (hqm ▸ List.mem_map.mpr ⟨q, hq, rfl⟩)

/-- The effect of `resolve` on a non-empty deadlocked table with unique
keys: the first-minimum entry is removed, everything else stays. -/
theorem resolve_removes_of_nodup {p0 : String × PInfo} {rest : Store}
    (hnd : ((p0 :: rest).map Prod.fst).Nodup)
    (h : detect_deadlock (p0 :: rest) = true) :
    ∃ pre post,
      p0 :: rest = pre ++ minHoldsEntry p0 rest :: post ∧
      resolve (p0 :: rest)
        = (ResolveResult.resolved (minHoldsEntry p0 rest).1, pre ++ post) := by
  obtain ⟨pre, post, hdecomp, _, _⟩ := minHoldsEntry_spec p0 rest
  set m := minHoldsEntry p0 rest with hm
  have hpre : ∀ b ∈ pre, ¬(b.1 == m.1) = true := by
    intro b hb hbm
    exact keys_ne_of_nodup_split (hdecomp ▸ hnd) b
      (List.mem_append.mpr (Or.inl hb)) (by simpa using hbm)
  have herase : (p0 :: rest).eraseP (fun q => q.1 == m.1) = pre ++ post := by
    rw [hdecomp, List.eraseP_append_right _ hpre,
      List.eraseP_cons_of_pos (by simp)]
  refine ⟨pre, post, hdecomp, ?_⟩
  simp only [resolve, h, if_true]
  rw [← hm, herase]

/-- A store whose processes form an `n`-cycle (`n ≥ 1`) is detected as
deadlocked: `p 0 → r 1 → p 1 → ⋯ → r 0 → p 0` closes. -/
theorem cycleStore_detect (n : Nat) (p r : Nat → String) (hn : 0 < n) :
    detect_deadlock (cycleStore n p r) = true := by
  have hstep_pr : ∀ i, i < n →
      step (edges (cycleStore n p r)) (p i) (r ((i + 1) % n)) := by
    intro i hi
    exact mem_edges.mpr ⟨(p i, ⟨r i, r ((i + 1) % n)⟩),
      List.mem_map.mpr ⟨i, List.mem_range.mpr hi, rfl⟩, Or.inl rfl⟩
  have hstep_rp : ∀ i, i < n →
      step (edges (cycleStore n p r)) (r i) (p i) := by
    intro i hi
    exact mem_edges.mpr ⟨(p i, ⟨r i, r ((i + 1) % n)⟩),
      List.mem_map.mpr ⟨i, List.mem_range.mpr hi, rfl⟩, Or.inr rfl⟩
  have key : ∀ m, 1 ≤ m → m ≤ n →
      Relation.TransGen (step (edges (cycleStore n p r))) (p 0) (p (m % n)) := by
    intro m
    induction m with
    | zero => intro h1 _; exact absurd h1 (by omega)
    | succ m ih =>
      intro h1 h2
      by_cases hm0 : m = 0
      · subst hm0
        have e1 := hstep_pr 0 hn
        have e2 := hstep_rp (1 % n) (Nat.mod_lt 1 hn)
        rw [show (0 + 1) % n = 1 % n from by norm_num] at e1
        exact Relation.TransGen.head e1 (Relation.TransGen.single e2)
      · have ih' := ih (by omega) (by omega)
        have e1 := hstep_pr (m % n) (Nat.mod_lt m hn)
        have e2 := hstep_rp ((m % n + 1) % n) (Nat.mod_lt _ hn)
        have hmm : (m % n + 1) % n = (m + 1) % n := by
          conv_lhs => rw [Nat.add_mod, Nat.mod_mod]
          rw [← Nat.add_mod]
        have step2 := Relation.TransGen.tail (Relation.TransGen.tail ih' e1) e2
        rwa [hmm] at step2
  have h0 := key n (by omega) (Nat.le_refl n)
  rw [Nat.mod_self] at h0
  have hB : hasCycleB (edges (cycleStore n p r)) = true :=
    (hasCycleB_iff_transGen _).mpr ⟨p 0, h0⟩
  have hlen : (cycleStore n p r).length = n := by simp [cycleStore]
  cases hcs : cycleStore n p r with
  | nil =>
    rw [hcs] at hlen
    simp at hlen
    omega
  | cons a l =>
    rw [hcs] at hB
    simpa [detect_deadlock] using hB

/-- Removing any one process from an `n`-cycle store (with distinct
process names, distinct resource names and no name shared between the
two) leaves an acyclic store: the surviving edges strictly increase
`cycleRank`. -/
theorem punctured_cycle_acyclic {n m : Nat} {p r : Nat → String} {sub : Store}
    (hm : m < n)
    (hpinj : ∀ i j, i < n → j < n → p i = p j → i = j)
    (hrinj : ∀ i j, i < n → j < n → r i = r j → i = j)
    (hdisj : ∀ i j, i < n → j < n → p i ≠ r j)
    (hsub : ∀ q ∈ sub, ∃ i, i < n ∧ i ≠ m ∧
      q = ((p i, ⟨r i, r ((i + 1) % n)⟩) : String × PInfo)) :
    detect_deadlock sub = false := by
  have hB : hasCycleB (edges sub) = false := by
    apply hasCycleB_eq_false_of_rank (cycleRank n m p r)
    intro a b hab
    obtain ⟨q, hq, hx⟩ := mem_edges.mp hab
    obtain ⟨i, hi, him, rfl⟩ := hsub q hq
    rcases hx with hx | hx
    · simp only [Prod.mk.injEq] at hx
      obtain ⟨ha, hb⟩ := hx
      rw [ha, hb, cycleRank_p hpinj hi,
        cycleRank_r hrinj hdisj (Nat.mod_lt _ (by omega))]
      have := cycleRank_lt_step hm hi him
      omega
    · simp only [Prod.mk.injEq] at hx
      obtain ⟨ha, hb⟩ := hx
      rw [ha, hb, cycleRank_r hrinj hdisj hi, cycleRank_p hpinj hi]
      omega
  cases hs : sub with
  | nil => simp [detect_deadlock]
  | cons a l =>
    rw [hs] at hB
    simpa [detect_deadlock] using hB

/- ### The process-table endpoints -/

/-- Writing an entry and reading it back under its key. -/
theorem dictLookup_dictSet (ps : Store) (k : String) (v : PInfo) :
    dictLookup (dictSet ps k v) k = some v := by
  unfold dictSet
  by_cases hany : ps.any (fun q => q.1 == k) = true
  · rw [if_pos hany]
    unfold dictLookup
    induction ps with
    | nil => simp at hany
    | cons q qs ih =>
      by_cases hqk : (q.1 == k) = true
      · simp only [List.map_cons, if_pos hqk]
        rw [List.find?_cons_of_pos _ (by simp)]
        rfl
      · simp only [List.map_cons, if_neg hqk]
        rw [List.find?_cons_of_neg _ (by simpa using hqk)]
        apply ih
        simpa [List.any_cons, hqk] using hany
  · rw [if_neg hany]
    unfold dictLookup
    have hnone : ps.find? (fun q => q.1 == k) = none := by
      rw [List.find?_eq_none]
      intro q hq hcon
      exact hany (List.any_eq_true.mpr ⟨q, hq, hcon⟩)
    rw [List.find?_append, hnone]
    simp

/- ### Claim theorems -/

/-- C1: for every store, `detect_deadlock` returns true iff the directed
graph with an edge from each held resource to its process and from each
process to its requested resource contains a directed cycle (self-loops
included); in particular the empty store yields false, a non-empty
acyclic store yields false and a cyclic store yields true. -/
theorem C1_detect_deadlock_iff_cycle (ps : Store) :
    (detect_deadlock ps = true ↔ HasCycle (edges ps)) ∧
      detect_deadlock ([] : Store) = false := by
  refine ⟨?_, rfl⟩
  cases ps with
  | nil =>
    constructor
    · intro h
      simp [detect_deadlock] at h
    · intro h
      have := (hasCycleB_iff (edges ([] : Store))).mpr h
      simp [edges, hasCycleB] at this
  | cons p rest =>
    simpa [detect_deadlock] using hasCycleB_iff (edges (p :: rest))

/-- C2: when a deadlock is detected, the terminated process is the one
whose held-resource name has minimum length, ties going to the key met
first in the store's iteration order: the store splits as
`pre ++ (v, d) :: post` around the victim, with every entry at least as
long and every earlier entry strictly longer. -/
theorem C2_resolve_victim (ps : Store) (h : detect_deadlock ps = true) :
    ∃ v d pre post,
      (resolve ps).1 = ResolveResult.resolved v ∧
      ps = pre ++ (v, d) :: post ∧
      (∀ q ∈ ps, d.holds.length ≤ q.2.holds.length) ∧
      (∀ q ∈ pre, d.holds.length < q.2.holds.length) := by
  cases ps with
  | nil => simp [detect_deadlock] at h
  | cons p rest =>
    obtain ⟨pre, post, hdecomp, hle, hlt⟩ := minHoldsEntry_spec p rest
    exact ⟨(minHoldsEntry p rest).1, (minHoldsEntry p rest).2, pre, post,
      by simp [resolve, h], by simpa using hdecomp, hle, hlt⟩

theorem C2_resolve_victim_witness :
    detect_deadlock twoCycleStore = true ∧
    ∃ v d pre post,
      (resolve twoCycleStore).1 = ResolveResult.resolved v ∧
      twoCycleStore = pre ++ (v, d) :: post ∧
      (∀ q ∈ twoCycleStore, d.holds.length ≤ q.2.holds.length) ∧
      (∀ q ∈ pre, d.holds.length < q.2.holds.length) :=
  ⟨by decide, C2_resolve_victim twoCycleStore (by decide)⟩

/-- C3: on a store with unique keys (a dict invariant) in which a
deadlock is detected, one `resolve` call removes exactly one entry, a key
present beforehand: the store splits as `pre ++ (v, d) :: post`, the call
reports `resolved v` and leaves exactly `pre ++ post`, one entry
shorter. -/
theorem C3_resolve_removes_one (ps : Store)
    (hnd : (ps.map Prod.fst).Nodup) (h : detect_deadlock ps = true) :
    ∃ v d pre post,
      ps = pre ++ (v, d) :: post ∧
      resolve ps = (ResolveResult.resolved v, pre ++ post) ∧
      (resolve ps).2.length + 1 = ps.length := by
  cases ps with
  | nil => simp [detect_deadlock] at h
  | cons p rest =>
    obtain ⟨pre, post, hdecomp, hres⟩ := resolve_removes_of_nodup hnd h
    refine ⟨(minHoldsEntry p rest).1, (minHoldsEntry p rest).2, pre, post,
      by simpa using hdecomp, hres, ?_⟩
    rw [hres, hdecomp]
    simp only [List.length_append, List.length_cons]
    omega

theorem C3_resolve_removes_one_witness :
    (twoCycleStore.map Prod.fst).Nodup ∧ detect_deadlock twoCycleStore = true ∧
    ∃ v d pre post,
      twoCycleStore = pre ++ (v, d) :: post ∧
      resolve twoCycleStore = (ResolveResult.resolved v, pre ++ post) ∧
      (resolve twoCycleStore).2.length + 1 = twoCycleStore.length :=
  ⟨by decide, by decide, C3_resolve_removes_one twoCycleStore (by decide) (by decide)⟩

/-- C7: resolving an empty store answers the informational
"nothing to resolve" message, an outcome distinct from `resolved`, and
leaves the (empty) store unchanged. -/
theorem C7_resolve_empty :
    resolve ([] : Store)
      = (ResolveResult.noProcesses "No processes to resolve", ([] : Store)) := rfl

/-- C10: the detect endpoint never changes the table, and `resolve` on a
non-empty store with no detected cycle reports `noDeadlock` and returns
the table unchanged. -/
theorem C10_detect_resolve_frame (ps : Store) :
    (detect_endpoint ps).2 = ps ∧
      (ps ≠ [] → detect_deadlock ps = false →
        resolve ps = (ResolveResult.noDeadlock "No deadlock detected", ps)) := by
  refine ⟨rfl, ?_⟩
  intro hne hdet
  cases ps with
  | nil => exact absurd rfl hne
  | cons p rest => simp [resolve, hdet]

theorem C10_detect_resolve_frame_witness :
    (detect_endpoint acyclicStore).2 = acyclicStore ∧
      acyclicStore ≠ [] ∧ detect_deadlock acyclicStore = false ∧
      resolve acyclicStore
        = (ResolveResult.noDeadlock "No deadlock detected", acyclicStore) :=
  ⟨(C10_detect_resolve_frame acyclicStore).1, by decide, by decide,
    (C10_detect_resolve_frame acyclicStore).2 (by decide) (by decide)⟩

/-- C5: `POST /api/processes` answers 400 with the error text and leaves
the table untouched when any of the three fields is absent or empty, and
otherwise stores the entry under the process name (inserting or
overwriting) and reports success with that name. -/
theorem C5_post_processes (ps : Store) (n h r : Option String) :
    ((n = none ∨ n = some "" ∨ h = none ∨ h = some "" ∨ r = none ∨ r = some "") →
      handle_processes_post ps n h r
        = (PostResult.badRequest "All fields are required", ps)) ∧
    (∀ n' h' r', n = some n' → h = some h' → r = some r' →
      n' ≠ "" → h' ≠ "" → r' ≠ "" →
      handle_processes_post ps n h r
        = (PostResult.ok n', dictSet ps n' ⟨h', r'⟩)) := by
  constructor
  · intro hmiss
    rcases n with _ | n' <;> rcases h with _ | h' <;> rcases r with _ | r' <;>
      (simp only [handle_processes_post]
       all_goals rcases hmiss with hc | hc | hc | hc | hc | hc <;> simp_all)
  · rintro n' h' r' rfl rfl rfl hn hh hr
    simp [handle_processes_post, hn, hh, hr]

theorem C5_post_processes_witness :
    handle_processes_post ([] : Store) (some "P1") none (some "R2")
      = (PostResult.badRequest "All fields are required", ([] : Store)) ∧
    handle_processes_post ([] : Store) (some "P1") (some "R1") (some "R2")
      = (PostResult.ok "P1", dictSet ([] : Store) "P1" ⟨"R1", "R2"⟩) :=
  ⟨(C5_post_processes [] (some "P1") none (some "R2")).1
      (Or.inr (Or.inr (Or.inl rfl))),
    (C5_post_processes [] (some "P1") (some "R1") (some "R2")).2
      "P1" "R1" "R2" rfl rfl rfl (by decide) (by decide) (by decide)⟩

/-- C6: after a valid add (all three fields non-empty), reading the table
through `GET /api/processes` yields that process under its name with
exactly the holds and requests fields that were supplied. -/
theorem C6_add_get_roundtrip (ps : Store) (n h r : String)
    (hn : n ≠ "") (hh : h ≠ "") (hr : r ≠ "") :
    dictLookup
      (handle_processes_get
        (handle_processes_post ps (some n) (some h) (some r)).2) n
      = some ⟨h, r⟩ := by
  have hpost : (handle_processes_post ps (some n) (some h) (some r)).2
      = dictSet ps n ⟨h, r⟩ := by
    simp [handle_processes_post, hn, hh, hr]
  rw [handle_processes_get, hpost]
  exact dictLookup_dictSet ps n ⟨h, r⟩

theorem C6_add_get_roundtrip_witness :
    dictLookup
      (handle_processes_get
        (handle_processes_post twoCycleStore (some "C") (some "R3") (some "R1")).2) "C"
      = some ⟨"R3", "R1"⟩ :=
  C6_add_get_roundtrip twoCycleStore "C" "R3" "R1"
    (by decide) (by decide) (by decide)

/-- C8: a chat request whose message field is missing or empty is
answered 400 (never the 500 branch), and the 500 answer with the error
text and the fixed fallback string occurs exactly on a failing upstream
call (for a non-empty message). -/
theorem C8_chat_errors (message : Option String)
    (upstream : Except String String) :
    ((message = none ∨ message = some "") →
      chat message upstream = ChatResult.badRequest "Message is required") ∧
    (∀ e, (chat message upstream = ChatResult.serverError e chat_fallback ↔
      (message.getD "" ≠ "" ∧ upstream = Except.error e))) ∧
    (∀ e f, chat message upstream = ChatResult.serverError e f →
      f = chat_fallback) := by
  refine ⟨?_, ?_, ?_⟩
  · intro hmiss
    rcases hmiss with rfl | rfl <;> simp [chat]
  · intro e
    rcases message with _ | m
    · simp [chat]
    · by_cases hm : m = ""
      · subst hm; simp [chat]
      · cases upstream with
        | ok t => simp [chat, hm]
        | error e' => simp [chat, hm, eq_comm]
  · intro e f hef
    rcases message with _ | m
    · simp [chat] at hef
    · by_cases hm : m = ""
      · subst hm; simp [chat] at hef
      · cases upstream with
        | ok t => simp [chat, hm] at hef
        | error e' =>
          simp only [chat, Option.getD_some, if_neg hm] at hef
          cases hef
          rfl

theorem C8_chat_errors_witness :
    chat none (Except.ok "hello") = ChatResult.badRequest "Message is required" ∧
    chat (some "hi") (Except.error "boom")
      = ChatResult.serverError "boom" chat_fallback :=
  ⟨(C8_chat_errors none (Except.ok "hello")).1 (Or.inl rfl),
    ((C8_chat_errors (some "hi") (Except.error "boom")).2.1 "boom").mpr
      ⟨by decide, rfl⟩⟩

/-- C9: the victim is the global minimum by held-resource-name length,
not restricted to cycle members: in `bystanderStore` the deadlock is
between `A` and `B`, yet `resolve` terminates the bystander `C` — a
process on no directed cycle — and the store stays deadlocked. -/
theorem C9_victim_not_on_cycle :
    detect_deadlock bystanderStore = true ∧
    (resolve bystanderStore).1 = ResolveResult.resolved "C" ∧
    detect_deadlock (resolve bystanderStore).2 = true ∧
    ¬ ∃ v w, List.Chain (step (edges bystanderStore)) v (w ++ [v]) ∧
      "C" ∈ v :: w := by
  refine ⟨by decide, by decide, by decide, ?_⟩
  apply not_mem_cycle_of_no_return
  intro b hb hreach
  have hb' : b = "y" := by
    simp only [step, edges, bystanderStore, List.mem_cons, Prod.mk.injEq,
      List.not_mem_nil, or_false] at hb
    rcases hb with ⟨h1, _⟩ | ⟨h1, _⟩ | ⟨h1, _⟩ | ⟨h1, _⟩ | ⟨_, h2⟩ | ⟨h1, _⟩
    · exact absurd h1 (by decide)
    · exact absurd h1 (by decide)
    · exact absurd h1 (by decide)
    · exact absurd h1 (by decide)
    · exact h2
    · exact absurd h1 (by decide)
  subst hb'
  have hcomp := reachableWithin_complete hreach
  exact absurd hcomp (by decide)

/-- C4: on a store whose `n` processes form one cycle (distinct process
names, distinct resource names, none shared), iterating the resolve
operation reaches a store with no detected deadlock within `n` calls
(in fact the very first call already breaks the only cycle). -/
theorem C4_cycle_resolved_within_n (n : Nat) (p r : Nat → String)
    (hp : ((List.range n).map p).Nodup)
    (hr : ((List.range n).map r).Nodup)
    (hdisj : ∀ x ∈ (List.range n).map p, x ∉ (List.range n).map r) :
    ∃ k, k ≤ n ∧ detect_deadlock (resolveIter k (cycleStore n p r)) = false := by
  by_cases hn0 : n = 0
  · subst hn0
    exact ⟨0, Nat.le_refl 0, by simp [cycleStore, resolveIter, detect_deadlock]⟩
  have hn : 0 < n := Nat.pos_of_ne_zero hn0
  refine ⟨1, by omega, ?_⟩
  have hdet := cycleStore_detect n p r hn
  have hpinj := inj_on_range_of_nodup_map hp
  have hrinj := inj_on_range_of_nodup_map hr
  have hdisj' : ∀ i j, i < n → j < n → p i ≠ r j := by
    intro i j hi hj hcon
    exact hdisj (p i) (List.mem_map.mpr ⟨i, List.mem_range.mpr hi, rfl⟩)
      (hcon ▸ List.mem_map.mpr ⟨j, List.mem_range.mpr hj, rfl⟩)
  have hkeys : ((cycleStore n p r).map Prod.fst).Nodup := by
    have hmap : (cycleStore n p r).map Prod.fst = (List.range n).map p := by
      unfold cycleStore
      rw [List.map_map]
      rfl
    rw [hmap]
    exact hp
  cases hcs : cycleStore n p r with
  | nil =>
    rw [hcs] at hdet
    simp [detect_deadlock] at hdet
  | cons p0 tail =>
    rw [hcs] at hdet hkeys
    obtain ⟨pre, post, hdecomp, hres⟩ := resolve_removes_of_nodup hkeys hdet
    have hmE : minHoldsEntry p0 tail ∈ cycleStore n p r := by
      rw [hcs, hdecomp]
      exact List.mem_append.mpr (Or.inr (List.mem_cons_self _ _))
    unfold cycleStore at hmE
    obtain ⟨k, hk, hfk⟩ := List.mem_map.mp hmE
    have hk' : k < n := List.mem_range.mp hk
    have hentries : ∀ q ∈ pre ++ post, ∃ i, i < n ∧ i ≠ k ∧
        q = ((p i, ⟨r i, r ((i + 1) % n)⟩) : String × PInfo) := by
      intro q hq
      have hqcs : q ∈ cycleStore n p r := by
        rw [hcs, hdecomp]
        rcases List.mem_append.mp hq with h' | h'
        · exact List.mem_append.mpr (Or.inl h')
        · exact List.mem_append.mpr (Or.inr (List.mem_cons_of_mem _ h'))
      unfold cycleStore at hqcs
      obtain ⟨i, hi, hqi⟩ := List.mem_map.mp hqcs
      refine ⟨i, List.mem_range.mp hi, ?_, hqi.symm⟩
      intro hik
      have hqk : q.1 = (minHoldsEntry p0 tail).1 := by
        rw [← hqi, ← hfk, hik]
      exact keys_ne_of_nodup_split (hdecomp ▸ hkeys) q hq hqk
    have hiter : resolveIter 1 (p0 :: tail) = pre ++ post := by
      simp [resolveIter, hres]
    rw [hiter]
    exact punctured_cycle_acyclic hk' hpinj hrinj hdisj' hentries

theorem C4_cycle_resolved_within_n_witness :
    (((List.range 2).map fun i => if i = 0 then "A" else "B").Nodup ∧
      ((List.range 2).map fun i => if i = 0 then "R1" else "R2").Nodup ∧
      ∀ x ∈ (List.range 2).map fun i => if i = 0 then "A" else "B",
        x ∉ (List.range 2).map fun i => if i = 0 then "R1" else "R2") ∧
    ∃ k, k ≤ 2 ∧ detect_deadlock (resolveIter k
      (cycleStore 2 (fun i => if i = 0 then "A" else "B")
        (fun i => if i = 0 then "R1" else "R2"))) = false :=
  ⟨⟨by decide, by decide, by decide⟩,
    C4_cycle_resolved_within_n 2
      (fun i => if i = 0 then "A" else "B")
      (fun i => if i = 0 then "R1" else "R2")
      (by decide) (by decide) (by decide)⟩

end DeadlockApp
